import Mathlib

/-!
Verification of the boot-transition subsystem of `boot-to-talos`.

This file gives a shallow embedding, in Lean, of the data formats and
operations of the repository's boot-transition core:

* the UEFI `BootOrder` variable codec (`internal/efi/efi.go`:
  `unmarshalBootOrder`, `BootOrderType.marshal`);
* the efivarfs variable store write/read protocol
  (`efiFilesystemReaderWriter.Write` / `.Read`);
* the EFI load-option decoder (`unmarshalLoadOption`);
* the boot-entry enumeration and boot-order promotion
  (`listBootEntries`, `getBootEntry`, `UpdateEFIVariables`);
* the UKI PE-section reader (`internal/uki`: `Extract`, `ReadCmdline`,
  `PatchCmdline`);
* the kexec_file_load attempt/retry structure
  (`internal/boot`: `KexecLoadFromAssets`).

Bytes are modelled as natural numbers (values < 256 where produced by the
encoders), byte buffers as `List Nat`, machine integers as `Nat` with
explicit `% 2 ^ w` where overflow matters.  Where the Go code iterates a
Go map (whose iteration order is unspecified), the embedding takes the
enumeration order as an explicit parameter constrained to be a
permutation of the map contents.
-/

namespace BootToTalos

/-! ## Little-endian byte codecs (encoding/binary, LittleEndian) -/

/-- `binary.LittleEndian.AppendUint16`: the two little-endian bytes of a
16-bit value. -/
def le16 (v : Nat) : List Nat := [v % 256, v / 256 % 256]

/-- `binary.LittleEndian.Uint16` applied at the head of a buffer. -/
def readLe16 (b0 b1 : Nat) : Nat := b0 + 256 * b1

/-- `binary.LittleEndian.PutUint32`: the four little-endian bytes of a
32-bit value. -/
def le32 (v : Nat) : List Nat :=
  [v % 256, v / 256 % 256, v / 256 ^ 2 % 256, v / 256 ^ 3 % 256]

/-- `binary.LittleEndian.Uint32` applied to the first four bytes of a
buffer (the buffer is assumed to have at least four bytes; missing bytes
read as zero, which never happens on the paths that call this). -/
def readLe32 (d : List Nat) : Nat :=
  d.getD 0 0 + 256 * d.getD 1 0 + 256 ^ 2 * d.getD 2 0 + 256 ^ 3 * d.getD 3 0

theorem readLe16_le16 (v : Nat) (h : v < 2 ^ 16) :
    readLe16 (v % 256) (v / 256 % 256) = v := by
  simp only [readLe16]
  have h2 : v / 256 % 256 = v / 256 := by
    apply Nat.mod_eq_of_lt
    omega
  rw [h2]
  omega

theorem readLe32_le32 (v : Nat) (h : v < 2 ^ 32) (tail : List Nat) :
    readLe32 (le32 v ++ tail) = v := by
  simp only [readLe32, le32, List.cons_append, List.getD, List.get?_eq_getElem?]
  simp only [List.getElem?_cons_zero, List.getElem?_cons_succ, Option.getD_some]
  have h1 : v / 256 % 256 = v / 256 % 256 := rfl
  have e2 : (256 : Nat) ^ 2 = 65536 := by norm_num
  have e3 : (256 : Nat) ^ 3 = 16777216 := by norm_num
  rw [e2, e3]
  omega

theorem le32_length (v : Nat) : (le32 v).length = 4 := rfl

/-! ## BootOrder codec (`internal/efi/efi.go`) -/

/-- `BootOrderType.marshal`: append each 16-bit entry in little-endian
order. -/
def marshalBootOrder : List Nat → List Nat
  | [] => []
  | v :: rest => v % 256 :: v / 256 % 256 :: marshalBootOrder rest

/-- Decoding loop of `unmarshalBootOrder`: consecutive little-endian
16-bit reads (only reached on even-length input). -/
def decodeLe16Pairs : List Nat → List Nat
  | b0 :: b1 :: rest => readLe16 b0 b1 :: decodeLe16Pairs rest
  | _ => []

/-- `unmarshalBootOrder`: reject odd-length buffers, otherwise decode
consecutive little-endian 16-bit values. -/
def unmarshalBootOrder (d : List Nat) : Option (List Nat) :=
  if d.length % 2 ≠ 0 then none
  else some (decodeLe16Pairs d)

theorem marshalBootOrder_length (bo : List Nat) :
    (marshalBootOrder bo).length = 2 * bo.length := by
  induction bo with
  | nil => rfl
  | cons v rest ih => simp [marshalBootOrder, ih]; omega

theorem decodeLe16Pairs_marshal (bo : List Nat) (h : ∀ v ∈ bo, v < 2 ^ 16) :
    decodeLe16Pairs (marshalBootOrder bo) = bo := by
  induction bo with
  | nil => rfl
  | cons v rest ih =>
      simp only [marshalBootOrder, decodeLe16Pairs]
      rw [readLe16_le16 v (h v (by simp)), ih (fun w hw => h w (by simp [hw]))]

theorem decodeLe16Pairs_spec : ∀ (d : List Nat), d.length % 2 = 0 →
    (decodeLe16Pairs d).length = d.length / 2 ∧
    (∀ i, i < d.length / 2 →
      (decodeLe16Pairs d).getD i 0 = readLe16 (d.getD (2 * i) 0) (d.getD (2 * i + 1) 0))
  | [], _ => by simp [decodeLe16Pairs]
  | [_], h => by simp at h
  | b0 :: b1 :: rest, h => by
      have hr : rest.length % 2 = 0 := by
        simp only [List.length_cons] at h
        omega
      obtain ⟨hlen, hget⟩ := decodeLe16Pairs_spec rest hr
      refine ⟨?_, ?_⟩
      · simp only [decodeLe16Pairs, List.length_cons, hlen]
        omega
      · intro i hi
        match i with
        | 0 => simp [decodeLe16Pairs]
        | j + 1 =>
            have hj : j < rest.length / 2 := by
              simp only [List.length_cons] at hi
              omega
            rw [show 2 * (j + 1) = 2 * j + 1 + 1 from by omega]
            simp only [decodeLe16Pairs, List.getD_cons_succ]
            exact hget j hj

/-- C7: marshalling a BootOrder list of 16-bit values and unmarshalling
it yields the original list (including the empty list); unmarshalling
fails exactly on odd-length raw buffers, and on every even-length buffer
succeeds, decoding consecutive little-endian 16-bit values. -/
theorem bootOrder_codec_roundtrip :
    (∀ bo : List Nat, (∀ v ∈ bo, v < 2 ^ 16) →
      unmarshalBootOrder (marshalBootOrder bo) = some bo)
    ∧ (∀ d : List Nat, unmarshalBootOrder d = none ↔ d.length % 2 = 1)
    ∧ (∀ d : List Nat, d.length % 2 = 0 →
      ∃ l, unmarshalBootOrder d = some l ∧ l.length = d.length / 2 ∧
        ∀ i, i < l.length →
          l.getD i 0 = readLe16 (d.getD (2 * i) 0) (d.getD (2 * i + 1) 0)) := by
  refine ⟨?_, ?_, ?_⟩
  · intro bo hbo
    have hlen : (marshalBootOrder bo).length % 2 = 0 := by
      rw [marshalBootOrder_length]
      omega
    simp only [unmarshalBootOrder, hlen]
    simp [decodeLe16Pairs_marshal bo hbo]
  · intro d
    constructor
    · intro hnone
      by_cases hd : d.length % 2 = 0
      · simp [unmarshalBootOrder, hd] at hnone
      · omega
    · intro hodd
      have hd : d.length % 2 ≠ 0 := by omega
      simp [unmarshalBootOrder, hd]
  · intro d hd
    obtain ⟨hlen, hget⟩ := decodeLe16Pairs_spec d hd
    exact ⟨decodeLe16Pairs d, by simp [unmarshalBootOrder, hd], hlen,
      fun i hi => hget i (hlen ▸ hi)⟩

/-- C7 witness: the round-trip, the odd-length rejection and the
even-length decode evaluated on concrete buffers. -/
theorem bootOrder_codec_roundtrip_witness :
    unmarshalBootOrder (marshalBootOrder [1, 7, 9]) = some [1, 7, 9]
    ∧ unmarshalBootOrder (marshalBootOrder []) = some []
    ∧ (unmarshalBootOrder [0, 0, 1] = none ↔ ([0, 0, 1] : List Nat).length % 2 = 1) :=
  ⟨bootOrder_codec_roundtrip.1 [1, 7, 9] (by decide),
   bootOrder_codec_roundtrip.1 [] (by decide),
   bootOrder_codec_roundtrip.2.1 [0, 0, 1]⟩

/-! ## Firmware variable store (`efiFilesystemReaderWriter`)

The efivarfs directory is modelled as an association list from the
variable file name to the raw file contents, kept in directory-
enumeration order.  All claims operate in the EFI global-variable scope,
so the `-<scope-uuid>` filename suffix is folded into the name. -/

abbrev EfiStore := List (String × List Nat)

/-- `attrNonVolatile` (1 << 0). -/
def attrNonVolatile : Nat := 1

/-- `attrBootserviceAccess` (1 << 1). -/
def attrBootserviceAccess : Nat := 2

/-- `attrRuntimeAccess` (1 << 2). -/
def attrRuntimeAccess : Nat := 4

/-- UEFI 2.10 Section 8.2.3 rule enforced by `Write`: runtime access
implies boot-service access (`attrs |= attrBootserviceAccess`). -/
def augmentAttrs (attrs : Nat) : Nat :=
  if attrs &&& attrRuntimeAccess ≠ 0 then attrs ||| attrBootserviceAccess else attrs

/-- The single buffer `Write` assembles: 4-byte little-endian attribute
word followed by the raw value. -/
def efiWriteValue (attrs : Nat) (value : List Nat) : List Nat :=
  le32 (augmentAttrs attrs) ++ value

/-- Raw file contents of a variable, if present (`os.ReadFile`). -/
def storeLookup : EfiStore → String → Option (List Nat)
  | [], _ => none
  | e :: rest, name => if e.1 = name then some e.2 else storeLookup rest name

/-- `O_CREATE|O_TRUNC` single-buffer write: replace the existing file
contents, or create the file. -/
def storeWriteRaw : EfiStore → String → List Nat → EfiStore
  | [], name, buf => [(name, buf)]
  | e :: rest, name, buf =>
      if e.1 = name then (name, buf) :: rest else e :: storeWriteRaw rest name buf

/-- `efiFilesystemReaderWriter.Write` for one variable. -/
def efiVarWrite (s : EfiStore) (name : String) (attrs : Nat) (value : List Nat) :
    EfiStore :=
  storeWriteRaw s name (efiWriteValue attrs value)

/-- `efiFilesystemReaderWriter.Read`: reject files shorter than four
bytes, otherwise split off the 4-byte little-endian attribute word. -/
def efiReadParse (raw : List Nat) : Option (List Nat × Nat) :=
  if raw.length < 4 then none else some (raw.drop 4, readLe32 raw)

/-- Read a variable from the store: `os.ReadFile` then parse. -/
def efiVarRead (s : EfiStore) (name : String) : Option (List Nat × Nat) :=
  match storeLookup s name with
  | none => none
  | some raw => efiReadParse raw

theorem storeLookup_storeWriteRaw (s : EfiStore) (name : String) (buf : List Nat) :
    storeLookup (storeWriteRaw s name buf) name = some buf := by
  induction s with
  | nil => simp [storeWriteRaw, storeLookup]
  | cons e rest ih =>
      by_cases he : e.1 = name
      · simp [storeWriteRaw, he, storeLookup]
      · simp [storeWriteRaw, he, storeLookup, ih]

theorem augmentAttrs_lt (attrs : Nat) (h : attrs < 2 ^ 32) :
    augmentAttrs attrs < 2 ^ 32 := by
  unfold augmentAttrs
  split
  · exact Nat.or_lt_two_pow h (by simp only [attrBootserviceAccess]; norm_num)
  · exact h

theorem lor_two_and_two (x : Nat) : (x ||| 2) &&& 2 = 2 := by
  apply Nat.eq_of_testBit_eq
  intro i
  simp only [Nat.testBit_and, Nat.testBit_or]
  rcases i with _ | _ | n <;> simp [Nat.testBit_succ]

theorem lor_two_and_four (x : Nat) : (x ||| 2) &&& 4 = x &&& 4 := by
  apply Nat.eq_of_testBit_eq
  intro i
  simp only [Nat.testBit_and, Nat.testBit_or]
  rcases i with _ | _ | _ | n <;> simp [Nat.testBit_succ]

/-- C6: writing a firmware variable encodes a 4-byte little-endian
attribute word followed by the raw value in one buffer, OR-ing
boot-service access into the attributes whenever runtime access is set;
reading the variable back yields the same value and the (possibly
augmented) attributes, and writing runtime access alone reads back with
both runtime and boot-service access set. -/
theorem efiVar_write_read_roundtrip (s : EfiStore) (name : String) (attrs : Nat)
    (value : List Nat) (h : attrs < 2 ^ 32) :
    storeLookup (efiVarWrite s name attrs value) name
        = some (le32 (augmentAttrs attrs) ++ value)
    ∧ efiVarRead (efiVarWrite s name attrs value) name
        = some (value, augmentAttrs attrs)
    ∧ (attrs &&& attrRuntimeAccess ≠ 0 →
        augmentAttrs attrs &&& attrBootserviceAccess ≠ 0
        ∧ augmentAttrs attrs &&& attrRuntimeAccess ≠ 0)
    ∧ efiVarRead (efiVarWrite s name attrRuntimeAccess value) name
        = some (value, attrRuntimeAccess ||| attrBootserviceAccess) := by
  have hly : ∀ (a : Nat), a < 2 ^ 32 →
      efiReadParse (le32 a ++ value) = some (value, a) := by
    intro a ha
    have hlen : (le32 a ++ value).length = 4 + value.length := by
      simp [le32]
      omega
    have hdrop : (le32 a ++ value).drop 4 = value := by
      have : (le32 a).length = 4 := le32_length a
      rw [← this, List.drop_left]
    simp only [efiReadParse, hlen]
    rw [if_neg (by omega), hdrop, readLe32_le32 a ha value]
  have hwr : ∀ (a : Nat), storeLookup (efiVarWrite s name a value) name
      = some (efiWriteValue a value) := fun a =>
    storeLookup_storeWriteRaw s name (efiWriteValue a value)
  refine ⟨hwr attrs, ?_, ?_, ?_⟩
  · simp only [efiVarRead, hwr attrs, efiWriteValue]
    exact hly (augmentAttrs attrs) (augmentAttrs_lt attrs h)
  · intro hrt
    have he : augmentAttrs attrs = attrs ||| attrBootserviceAccess := by
      simp [augmentAttrs, hrt]
    refine ⟨?_, ?_⟩
    · rw [he]
      simp only [attrBootserviceAccess]
      rw [lor_two_and_two]
      omega
    · rw [he]
      simp only [attrBootserviceAccess, attrRuntimeAccess] at hrt ⊢
      rw [lor_two_and_four]
      exact hrt
  · simp only [efiVarRead, hwr attrRuntimeAccess, efiWriteValue]
    have hru : augmentAttrs attrRuntimeAccess
        = attrRuntimeAccess ||| attrBootserviceAccess := by decide
    rw [hru]
    exact hly (attrRuntimeAccess ||| attrBootserviceAccess) (by decide)

/-- C6 witness: a concrete write of runtime-access-only attributes reads
back with both runtime and boot-service access. -/
theorem efiVar_write_read_roundtrip_witness :
    efiVarRead (efiVarWrite [] "BootOrder" attrRuntimeAccess [7, 0]) "BootOrder"
      = some ([7, 0], attrRuntimeAccess ||| attrBootserviceAccess) :=
  (efiVar_write_read_roundtrip [] "BootOrder" attrRuntimeAccess [7, 0]
    (by decide)).2.2.2

/-! ## EFI load-option decoder (`unmarshalLoadOption`) -/

/-- bytes.Index with pattern 0x00 0x00: index of the first position at
which two consecutive zero bytes occur. -/
def findTwoZeros : List Nat → Option Nat
  | b0 :: b1 :: rest =>
      if b0 = 0 ∧ b1 = 0 then some 0
      else (findTwoZeros (b1 :: rest)).map (· + 1)
  | _ => none

/-- UTF-16LE code-unit decoding.  This models the x/text UTF-16 decoder
on inputs without surrogate pairs (all descriptions in this development
are ASCII, where the decoded string and the code-unit list coincide
byte for byte); a dangling odd byte decodes to the replacement
character, as the replacing decoder produces. -/
def utf16Units : List Nat → List Nat
  | b0 :: b1 :: rest => readLe16 b0 b1 :: utf16Units rest
  | [] => []
  | [_] => [0xFFFD]

/-- bytes.TrimSuffix with a single zero byte, on the decoded units (a
trailing zero byte of the decoded UTF-8 is exactly a trailing zero
unit). -/
def trimOneZeroSuffix (l : List Nat) : List Nat :=
  if l.getLast? = some 0 then l.dropLast else l

/-- `unmarshalLoadOption`: require at least the 6-byte
flags/path-length header, locate the first double-zero byte pair after
it, decode the bytes up to and including the byte before the pair's
second byte as the UTF-16LE description. -/
def unmarshalLoadOption (data : List Nat) : Option (List Nat) :=
  if data.length < 6 then none
  else
    match findTwoZeros (data.drop 6) with
    | none => none
    | some nullIdx =>
        some (trimOneZeroSuffix (utf16Units ((data.drop 6).take (nullIdx + 1))))

/-- UTF-16LE encoding of a list of BMP code units; used to build the
load-option records appearing in the theorems. -/
def utf16leEncode : List Nat → List Nat
  | [] => []
  | u :: rest => u % 256 :: u / 256 % 256 :: utf16leEncode rest

theorem utf16leEncode_length (units : List Nat) :
    (utf16leEncode units).length = 2 * units.length := by
  induction units with
  | nil => rfl
  | cons u rest ih => simp [utf16leEncode, ih]; omega

theorem utf16Units_encode (units : List Nat) (h : ∀ u ∈ units, u < 2 ^ 16) :
    utf16Units (utf16leEncode units) = units := by
  induction units with
  | nil => rfl
  | cons u rest ih =>
      simp only [utf16leEncode, utf16Units]
      rw [readLe16_le16 u (h u (by simp)), ih (fun w hw => h w (by simp [hw]))]

theorem findTwoZeros_encode : ∀ (units tail : List Nat), units ≠ [] →
    (∀ u ∈ units, 0 < u ∧ u < 128) →
    findTwoZeros (utf16leEncode units ++ 0 :: 0 :: tail)
      = some (2 * units.length - 1)
  | [], _, hne, _ => absurd rfl hne
  | [u], tail, _, hu => by
      obtain ⟨hpos, hlt⟩ := hu u (by simp)
      have h1 : u % 256 = u := Nat.mod_eq_of_lt (by omega)
      have h2 : u / 256 = 0 := Nat.div_eq_of_lt (by omega)
      have hu0 : ¬(u = 0) := by omega
      simp only [utf16leEncode, h1, h2, List.cons_append, List.nil_append]
      simp [findTwoZeros, hu0]
  | u :: v :: rest, tail, _, hu => by
      obtain ⟨hupos, hult⟩ := hu u (by simp)
      obtain ⟨hvpos, hvlt⟩ := hu v (by simp)
      have ih := findTwoZeros_encode (v :: rest) tail (by simp)
        (fun w hw => hu w (by simp at hw ⊢; tauto))
      have h1 : u % 256 = u := Nat.mod_eq_of_lt (by omega)
      have h2 : u / 256 = 0 := Nat.div_eq_of_lt (by omega)
      have hv1 : v % 256 = v := Nat.mod_eq_of_lt (by omega)
      have hv2 : v / 256 = 0 := Nat.div_eq_of_lt (by omega)
      have hu0 : ¬(u = 0) := by omega
      have hv0 : ¬(v = 0) := by omega
      have henc : utf16leEncode (v :: rest) = v :: 0 :: utf16leEncode rest := by
        simp only [utf16leEncode, hv1, hv2]
      have hstep : utf16leEncode (u :: v :: rest) ++ 0 :: 0 :: tail
          = u :: 0 :: v :: 0 :: (utf16leEncode rest ++ 0 :: 0 :: tail) := by
        simp only [utf16leEncode, h1, h2, hv1, hv2, List.cons_append]
      rw [henc] at ih
      simp only [List.cons_append] at ih
      rw [hstep]
      rw [findTwoZeros, if_neg (by simp [hu0])]
      rw [findTwoZeros, if_neg (by simp [hv0])]
      rw [ih]
      simp only [Option.map_some', List.length_cons]
      congr 1

theorem getLast?_ne_zero (l : List Nat) (h : ∀ u ∈ l, 0 < u) :
    l.getLast? ≠ some 0 := by
  intro hcon
  have hmem : (0 : Nat) ∈ l := by
    have := List.getLast?_eq_getLast (l := l)
    match l, hcon with
    | a :: rest, hcon =>
        have : (a :: rest).getLast (by simp) ∈ a :: rest := List.getLast_mem _
        rw [List.getLast?_eq_getLast (a :: rest) (by simp)] at hcon
        simp only [Option.some_inj] at hcon
        rwa [hcon] at this
  exact absurd (h 0 hmem) (by omega)

/-- C8: a load-option buffer made of the 6-byte flags/path-length
header, a NUL-terminated UTF-16LE ASCII description and arbitrary
trailing device-path bytes decodes to exactly that description; a
buffer shorter than the fixed header, or one with no double-zero
terminator after the header, fails to decode. -/
theorem unmarshalLoadOption_spec (header units tail : List Nat)
    (hh : header.length = 6) (hne : units ≠ [])
    (hascii : ∀ u ∈ units, 0 < u ∧ u < 128) :
    unmarshalLoadOption (header ++ (utf16leEncode units ++ 0 :: 0 :: tail))
        = some units
    ∧ (∀ data : List Nat, data.length < 6 → unmarshalLoadOption data = none)
    ∧ (∀ data : List Nat, findTwoZeros (data.drop 6) = none →
        unmarshalLoadOption data = none) := by
  refine ⟨?_, ?_, ?_⟩
  · have hdrop : (header ++ (utf16leEncode units ++ 0 :: 0 :: tail)).drop 6
        = utf16leEncode units ++ 0 :: 0 :: tail := by
      rw [← hh, List.drop_left]
    have hlen : ¬((header ++ (utf16leEncode units ++ 0 :: 0 :: tail)).length < 6) := by
      simp [List.length_append, hh]
    have hfind := findTwoZeros_encode units tail hne hascii
    have hpos : 0 < units.length := List.length_pos.mpr hne
    have htake : (utf16leEncode units ++ 0 :: 0 :: tail).take (2 * units.length - 1 + 1)
        = utf16leEncode units := by
      rw [show 2 * units.length - 1 + 1 = 2 * units.length from by omega,
        ← utf16leEncode_length units, List.take_left]
    simp only [unmarshalLoadOption, hdrop, hlen, if_false, hfind, htake]
    rw [utf16Units_encode units (fun u hu => by have := hascii u hu; omega)]
    have htrim : trimOneZeroSuffix units = units := by
      unfold trimOneZeroSuffix
      rw [if_neg (getLast?_ne_zero units (fun u hu => (hascii u hu).1))]
    rw [htrim]
  · intro data hlt
    simp [unmarshalLoadOption, hlt]
  · intro data hfind
    by_cases hlt : data.length < 6
    · simp [unmarshalLoadOption, hlt]
    · simp [unmarshalLoadOption, hlt, hfind]

/-- The UTF-16 code units of the description string the installer
writes, "Talos Linux UKI". -/
def talosDescUnits : List Nat := "Talos Linux UKI".toList.map Char.toNat

/-- C8 witness: the concrete record with description "Talos Linux UKI",
a 6-byte header and trailing device-path bytes decodes to exactly that
description, and a 3-byte buffer fails. -/
theorem unmarshalLoadOption_spec_witness :
    unmarshalLoadOption ([1, 0, 0, 0, 9, 0]
        ++ (utf16leEncode talosDescUnits ++ 0 :: 0 :: [4, 4, 4]))
      = some talosDescUnits
    ∧ unmarshalLoadOption [1, 2, 3] = none := by
  have h := unmarshalLoadOption_spec [1, 0, 0, 0, 9, 0] talosDescUnits [4, 4, 4]
    (by decide) (by decide) (by decide)
  exact ⟨h.1, h.2.1 [1, 2, 3] (by decide)⟩

/-! ## UKI PE image reader (`internal/uki`: `Extract`) -/

/-- A PE section header as exposed by debug/pe: name, virtual size, raw
on-disk size, file offset of the raw data. -/
structure PESection where
  name : String
  virtualSize : Nat
  size : Nat
  offset : Nat

/-- A PE file: its section headers and the underlying file bytes. -/
structure PEFile where
  sections : List PESection
  data : List Nat

/-- The byte sequence obtained by reading one extracted stream to the
end: `section.Open()` yields the raw on-disk bytes (`Size` bytes at
`Offset`) and `Extract` wraps them in a reader limited to
`VirtualSize`. -/
def sectionStream (f : PEFile) (s : PESection) : List Nat :=
  ((f.data.drop s.offset).take s.size).take s.virtualSize

/-- strings.TrimRight with a NUL cut set: drop trailing NUL characters
from a section name. -/
def trimRightNullStr (s : String) : String :=
  String.mk ((s.toList.reverse.dropWhile (fun c => c = Char.ofNat 0)).reverse)

/-- The three bindings of `Extract`'s section map. -/
structure UKIScan where
  linux : Option (List Nat)
  initrd : Option (List Nat)
  cmdline : Option (List Nat)

/-- One iteration of the section loop: bind the section's bounded
stream to the matching map entry if that entry is still unbound (first
match wins). -/
def scanStep (f : PEFile) (acc : UKIScan) (s : PESection) : UKIScan :=
  let n := trimRightNullStr s.name
  if n = ".initrd" ∧ acc.initrd = none then
    { acc with initrd := some (sectionStream f s) }
  else if n = ".cmdline" ∧ acc.cmdline = none then
    { acc with cmdline := some (sectionStream f s) }
  else if n = ".linux" ∧ acc.linux = none then
    { acc with linux := some (sectionStream f s) }
  else acc

/-- The section loop of `Extract`. -/
def scanSections (f : PEFile) : List PESection → UKIScan → UKIScan
  | [], acc => acc
  | s :: rest, acc => scanSections f rest (scanStep f acc s)

/-- Scan all sections of a PE file starting from the empty binding. -/
def scanPE (f : PEFile) : UKIScan := scanSections f f.sections ⟨none, none, none⟩

/-- The keys of `Extract`'s section map. -/
inductive UKISectionName
  | linux
  | initrd
  | cmdline
deriving DecidableEq

/-- The section name string of a map key. -/
def UKISectionName.str : UKISectionName → String
  | .linux => ".linux"
  | .initrd => ".initrd"
  | .cmdline => ".cmdline"

/-- The binding of a map key after the scan. -/
def lookupScan (u : UKIScan) : UKISectionName → Option (List Nat)
  | .linux => u.linux
  | .initrd => u.initrd
  | .cmdline => u.cmdline

/-- The final check loop of `Extract` iterates the Go section map in
unspecified order and returns at the first unbound entry; the
enumeration order is therefore an explicit parameter. -/
def firstMissing (u : UKIScan) : List UKISectionName → Option UKISectionName
  | [] => none
  | n :: rest => if lookupScan u n = none then some n else firstMissing u rest

/-- The error text of the missing-section failure. -/
def missingSectionMessage (n : UKISectionName) : String :=
  n.str ++ " not found in PE file"

/-- Outcome of `Extract`: whether `peFile.Close()` was called before
returning, and either the error or the three bound streams. -/
structure ExtractOutcome where
  fileClosed : Bool
  result : Except String UKIScan

/-- `uki.Extract`: scan the sections, then check the three map entries
in the given enumeration order; on the first unbound entry close the
file and fail, otherwise return the bindings with the file left open
(owned by the returned assets). -/
def ukiExtract (f : PEFile) (checkOrder : List UKISectionName) : ExtractOutcome :=
  match firstMissing (scanPE f) checkOrder with
  | some n => ⟨true, .error (missingSectionMessage n)⟩
  | none => ⟨false, .ok (scanPE f)⟩

/-- Substring containment, used to state which section names an error
message mentions. -/
def containsStr (hay needle : String) : Prop := needle.toList <:+: hay.toList

instance (hay needle : String) : Decidable (containsStr hay needle) :=
  inferInstanceAs (Decidable (needle.toList <:+: hay.toList))

theorem firstMissing_finds (u : UKIScan) : ∀ (order : List UKISectionName),
    (∃ n ∈ order, lookupScan u n = none) →
    ∃ m, firstMissing u order = some m ∧ lookupScan u m = none
  | [], h => by simp at h
  | n :: rest, h => by
      by_cases hn : lookupScan u n = none
      · exact ⟨n, by simp [firstMissing, hn], hn⟩
      · obtain ⟨m, hm, hmn⟩ := h
        simp only [List.mem_cons] at hm
        rcases hm with rfl | hm
        · exact absurd hmn hn
        · obtain ⟨m2, h1, h2⟩ := firstMissing_finds u rest ⟨m, hm, hmn⟩
          exact ⟨m2, by simp [firstMissing, hn, h1], h2⟩

/-- A PE image containing no sections at all. -/
def noSectionPE : PEFile := ⟨[], []⟩

/-- C1 counterexample: for an image containing none of the three
required sections, the extraction error names only a single section
(here, with the check loop enumerating .initrd first, the message is
".initrd not found in PE file"), not all three: the check loop
short-circuits at the first unbound entry. -/
theorem extract_missing_counterexample :
    (ukiExtract noSectionPE [.initrd, .cmdline, .linux]).result
        = .error (missingSectionMessage .initrd)
    ∧ ¬ containsStr (missingSectionMessage .initrd) ".linux"
    ∧ ¬ containsStr (missingSectionMessage .initrd) ".cmdline" := by
  refine ⟨rfl, ?_, ?_⟩ <;> (intro h; exact absurd h (by decide))

/-- C1 amended: for every PE image in which at least one of the three
required UKI sections is unbound after the scan, `Extract` (under any
enumeration order of the section map) closes the underlying file,
returns no assets, and fails with a missing-section error naming one
absent section (the first unbound entry in the enumeration order); the
check loop short-circuits, so the error does not name all absent
sections. -/
theorem extract_missing_section (f : PEFile) (order : List UKISectionName)
    (hperm : order.Perm [.linux, .initrd, .cmdline])
    (hmiss : ∃ n, lookupScan (scanPE f) n = none) :
    (ukiExtract f order).fileClosed = true
    ∧ ∃ m, (ukiExtract f order).result = .error (missingSectionMessage m)
        ∧ lookupScan (scanPE f) m = none := by
  obtain ⟨n, hn⟩ := hmiss
  have hmemall : n ∈ [UKISectionName.linux, .initrd, .cmdline] := by
    cases n <;> simp
  have hmem : n ∈ order := hperm.mem_iff.mpr hmemall
  obtain ⟨m, hfm, hlm⟩ := firstMissing_finds (scanPE f) order ⟨n, hmem, hn⟩
  refine ⟨?_, m, ?_, hlm⟩ <;> simp [ukiExtract, hfm]

/-- C1 witness: the amended statement evaluated on the image with no
sections, under the enumeration order .linux, .initrd, .cmdline. -/
theorem extract_missing_section_witness :
    (ukiExtract noSectionPE [.linux, .initrd, .cmdline]).fileClosed = true
    ∧ ∃ m, (ukiExtract noSectionPE [.linux, .initrd, .cmdline]).result
          = .error (missingSectionMessage m)
        ∧ lookupScan (scanPE noSectionPE) m = none :=
  extract_missing_section noSectionPE [.linux, .initrd, .cmdline]
    (List.Perm.refl _) ⟨.linux, rfl⟩

/-- A section header for a payload laid out at file offset `off` and
followed by `pad.length` bytes of file-alignment padding: the virtual
size is the payload length, the raw on-disk size includes the
padding. -/
def mkSection (name : String) (off : Nat) (payload pad : List Nat) : PESection :=
  ⟨name, payload.length, payload.length + pad.length, off⟩

/-- A well-formed three-section UKI image: an arbitrary header prefix,
then the kernel, initrd and cmdline payloads, each followed by
arbitrary alignment padding, plus arbitrary further sections appended
after the three required ones. -/
def mkUKI (pre k kp i ip c cp : List Nat) (extra : List PESection) : PEFile :=
  ⟨[mkSection ".linux" pre.length k kp,
    mkSection ".initrd" (pre.length + (k.length + kp.length)) i ip,
    mkSection ".cmdline" (pre.length + (k.length + (kp.length + (i.length + ip.length)))) c cp]
      ++ extra,
   pre ++ (k ++ (kp ++ (i ++ (ip ++ (c ++ cp)))))⟩

@[simp] theorem mkSection_name (name : String) (off : Nat) (payload pad : List Nat) :
    (mkSection name off payload pad).name = name := rfl

theorem sectionStream_layout (f : PEFile) (name : String)
    (pref payload pad suff : List Nat)
    (hdata : f.data = pref ++ (payload ++ (pad ++ suff))) :
    sectionStream f (mkSection name pref.length payload pad) = payload := by
  simp only [sectionStream, mkSection, hdata]
  rw [List.drop_left]
  rw [show payload ++ (pad ++ suff) = (payload ++ pad) ++ suff by
    simp [List.append_assoc]]
  rw [show payload.length + pad.length = (payload ++ pad).length by simp]
  rw [List.take_left, List.take_left]

theorem scanSections_full (f : PEFile) : ∀ (rest : List PESection) (a b c : List Nat),
    scanSections f rest ⟨some a, some b, some c⟩ = ⟨some a, some b, some c⟩
  | [], _, _, _ => rfl
  | s :: rest, a, b, c => by
      have hstep : scanStep f ⟨some a, some b, some c⟩ s = ⟨some a, some b, some c⟩ := by
        simp [scanStep]
      rw [scanSections, hstep]
      exact scanSections_full f rest a b c

theorem firstMissing_of_all_bound (u : UKIScan)
    (h : ∀ n, lookupScan u n ≠ none) : ∀ (order : List UKISectionName),
    firstMissing u order = none
  | [] => rfl
  | n :: rest => by
      simp [firstMissing, h n, firstMissing_of_all_bound u h rest]

theorem scanPE_mkUKI (pre k kp i ip c cp : List Nat) (extra : List PESection) :
    scanPE (mkUKI pre k kp i ip c cp extra) = ⟨some k, some i, some c⟩ := by
  have hd : (mkUKI pre k kp i ip c cp extra).data
      = pre ++ (k ++ (kp ++ (i ++ (ip ++ (c ++ cp))))) := rfl
  have hk : sectionStream (mkUKI pre k kp i ip c cp extra)
      (mkSection ".linux" pre.length k kp) = k :=
    sectionStream_layout _ _ pre k kp (i ++ (ip ++ (c ++ cp))) (by simp [hd])
  have hi : sectionStream (mkUKI pre k kp i ip c cp extra)
      (mkSection ".initrd" (pre.length + (k.length + kp.length)) i ip) = i := by
    have := sectionStream_layout (mkUKI pre k kp i ip c cp extra) ".initrd"
      (pre ++ (k ++ kp)) i ip (c ++ cp) (by simp [hd])
    simpa using this
  have hc : sectionStream (mkUKI pre k kp i ip c cp extra)
      (mkSection ".cmdline"
        (pre.length + (k.length + (kp.length + (i.length + ip.length)))) c cp) = c := by
    have := sectionStream_layout (mkUKI pre k kp i ip c cp extra) ".cmdline"
      (pre ++ (k ++ (kp ++ (i ++ ip)))) c cp [] (by simp [hd])
    simpa using this
  have hne1 : ¬((".linux" : String) = ".initrd") := by decide
  have hne2 : ¬((".linux" : String) = ".cmdline") := by decide
  have hne3 : ¬((".initrd" : String) = ".cmdline") := by decide
  have hne4 : ¬((".cmdline" : String) = ".initrd") := by decide
  have ht1 : trimRightNullStr ".linux" = ".linux" := by decide
  have ht2 : trimRightNullStr ".initrd" = ".initrd" := by decide
  have ht3 : trimRightNullStr ".cmdline" = ".cmdline" := by decide
  show scanSections _ ([mkSection ".linux" pre.length k kp,
    mkSection ".initrd" (pre.length + (k.length + kp.length)) i ip,
    mkSection ".cmdline" (pre.length + (k.length + (kp.length + (i.length + ip.length)))) c cp]
      ++ extra) ⟨none, none, none⟩ = ⟨some k, some i, some c⟩
  simp only [List.cons_append, List.nil_append, scanSections]
  have hs1 : scanStep (mkUKI pre k kp i ip c cp extra) ⟨none, none, none⟩
      (mkSection ".linux" pre.length k kp) = ⟨some k, none, none⟩ := by
    simp only [scanStep, mkSection_name, ht1]
    rw [if_neg (by simp [hne1]), if_neg (by simp [hne2]), if_pos (by simp), hk]
  have hs2 : scanStep (mkUKI pre k kp i ip c cp extra) ⟨some k, none, none⟩
      (mkSection ".initrd" (pre.length + (k.length + kp.length)) i ip)
      = ⟨some k, some i, none⟩ := by
    simp only [scanStep, mkSection_name, ht2]
    rw [if_pos (by simp), hi]
  have hs3 : scanStep (mkUKI pre k kp i ip c cp extra) ⟨some k, some i, none⟩
      (mkSection ".cmdline"
        (pre.length + (k.length + (kp.length + (i.length + ip.length)))) c cp)
      = ⟨some k, some i, some c⟩ := by
    simp only [scanStep, mkSection_name, ht3]
    rw [if_neg (by simp [hne4]), if_pos (by simp), hc]
  rw [hs1, hs2, hs3]
  exact scanSections_full _ extra k i c

/-- C5: extracting a well-formed three-section UKI image succeeds and
binds each stream to the section's virtual size, so reading the streams
to the end yields exactly the original kernel, initrd and cmdline
payload byte sequences with no file-alignment padding bytes included,
regardless of per-section padding; any further sections (including ones
repeating the three names) are ignored because the first match wins,
and the file is left open for the returned assets. -/
theorem extract_wellformed (pre k kp i ip c cp : List Nat)
    (extra : List PESection) (order : List UKISectionName)
    (_hperm : order.Perm [.linux, .initrd, .cmdline]) :
    (ukiExtract (mkUKI pre k kp i ip c cp extra) order).result
        = .ok ⟨some k, some i, some c⟩
    ∧ (ukiExtract (mkUKI pre k kp i ip c cp extra) order).fileClosed = false := by
  have hscan := scanPE_mkUKI pre k kp i ip c cp extra
  have hbound : ∀ n, lookupScan (scanPE (mkUKI pre k kp i ip c cp extra)) n ≠ none := by
    intro n
    rw [hscan]
    cases n <;> simp [lookupScan]
  have hfm := firstMissing_of_all_bound _ hbound order
  rw [hscan] at hfm
  constructor <;> simp [ukiExtract, hfm, hscan]

/-- C5 witness: the concrete three-section image with kernel bytes
75 75, initrd byte 42 and cmdline bytes 99 0 (each followed by padding,
plus a duplicate .linux section) extracts to exactly those payloads. -/
theorem extract_wellformed_witness :
    (ukiExtract (mkUKI [9, 9] [75, 75] [0, 0, 0] [42] [0] [99, 0] [0, 0]
        [mkSection ".linux" 0 [9, 9] []]) [.linux, .initrd, .cmdline]).result
      = .ok ⟨some [75, 75], some [42], some [99, 0]⟩ :=
  (extract_wellformed [9, 9] [75, 75] [0, 0, 0] [42] [0] [99, 0] [0, 0]
    [mkSection ".linux" 0 [9, 9] []] [.linux, .initrd, .cmdline]
    (List.Perm.refl _)).1

/-! ## Cmdline read and in-place patch (`internal/uki`: `ReadCmdline`,
`PatchCmdline`) -/

/-- strings.TrimRight with a NUL cut set on raw bytes: drop trailing
zero bytes. -/
def trimTrailingZeros (l : List Nat) : List Nat :=
  (l.reverse.dropWhile (fun b => b = 0)).reverse

/-- `uki.ReadCmdline`: return the stream of the first section named
".cmdline" (raw bytes limited to the virtual size), with trailing NUL
bytes trimmed; no such section is an error (`none`). -/
def readCmdline (f : PEFile) : Option (List Nat) :=
  match f.sections.find? (fun s => s.name == ".cmdline") with
  | none => none
  | some s => some (trimTrailingZeros (sectionStream f s))

/-- `maxSize` computed by `PatchCmdline`: the raw section size, falling
back to virtual size when the raw size is zero. -/
def cmdlineReservedSize (s : PESection) : Nat :=
  if s.size = 0 then s.virtualSize else s.size

/-- NUL-pad a buffer to `n` bytes (the buffer fits by the caller's
check). -/
def padZeros (l : List Nat) (n : Nat) : List Nat :=
  l ++ List.replicate (n - l.length) 0

/-- Overwrite `buf.length` bytes of `data` at byte offset `off`
(`file.Seek` then `file.Write`). -/
def writeAt (data : List Nat) (off : Nat) (buf : List Nat) : List Nat :=
  data.take off ++ (buf ++ data.drop (off + buf.length))

/-- `uki.PatchCmdline`: locate the first ".cmdline" section, reject a
value longer than the reserved size, otherwise overwrite the section's
raw bytes with the value NUL-padded to the reserved size.  The result
pairs the on-disk file state after the call with the outcome. -/
def patchCmdline (f : PEFile) (newCmdline : List Nat) : PEFile × Except String Unit :=
  match f.sections.find? (fun s => s.name == ".cmdline") with
  | none => (f, .error ".cmdline section not found in PE file")
  | some s =>
      if newCmdline.length > cmdlineReservedSize s then
        (f, .error "new cmdline too long")
      else
        ({ f with data := writeAt f.data s.offset (padZeros newCmdline (cmdlineReservedSize s)) },
         .ok ())

theorem dropWhile_replicate_zero_append (m : Nat) (l : List Nat) :
    (List.replicate m 0 ++ l).dropWhile (fun b => b = 0)
      = l.dropWhile (fun b => b = 0) := by
  induction m with
  | zero => simp
  | succ n ih => simp [List.replicate_succ, List.dropWhile, ih]

theorem trimTrailingZeros_pad (l : List Nat) (m : Nat) :
    trimTrailingZeros (l ++ List.replicate m 0) = trimTrailingZeros l := by
  unfold trimTrailingZeros
  rw [List.reverse_append, List.reverse_replicate, dropWhile_replicate_zero_append]

/-- The payload bytes a patched cmdline section reads back as. -/
theorem sectionStream_patched (f : PEFile) (s : PESection) (new : List Nat)
    (hoff : s.offset + cmdlineReservedSize s ≤ f.data.length)
    (hsz : s.size ≠ 0) (hlen : new.length ≤ min s.virtualSize s.size) :
    sectionStream
      { f with data := writeAt f.data s.offset (padZeros new (cmdlineReservedSize s)) } s
      = new ++ List.replicate (min (s.virtualSize - new.length) (s.size - new.length)) 0 := by
  have hres : cmdlineReservedSize s = s.size := by simp [cmdlineReservedSize, hsz]
  have hnlen : new.length ≤ s.size := by omega
  have hplen : (padZeros new (cmdlineReservedSize s)).length = s.size := by
    simp only [padZeros, List.length_append, List.length_replicate, hres]
    omega
  have hofflen : (f.data.take s.offset).length = s.offset := by
    rw [List.length_take]
    omega
  simp only [sectionStream, writeAt]
  rw [List.drop_left' hofflen, ← hplen, List.take_left, hplen]
  simp only [padZeros, hres]
  rw [List.take_append_eq_append_take, List.take_of_length_le (by omega),
    List.take_replicate]

theorem readCmdline_of_find (f : PEFile) (s : PESection)
    (hfind : f.sections.find? (fun t => t.name == ".cmdline") = some s) :
    readCmdline f = some (trimTrailingZeros (sectionStream f s)) := by
  unfold readCmdline
  rw [hfind]

/-- C4 counterexample: on a UKI file whose ".cmdline" section has
virtual size 4 but raw (reserved) size 8, patching with a 6-byte value
succeeds (6 does not exceed the reserved size 8), yet the subsequent
read returns only the 4-byte virtual-size prefix of the new value, not
the new value trimmed of padding. -/
theorem patchCmdline_counterexample :
    (patchCmdline ⟨[⟨".cmdline", 4, 8, 0⟩], [97, 98, 99, 100, 0, 0, 0, 0]⟩
        [65, 66, 67, 68, 69, 70]).2 = .ok ()
    ∧ readCmdline (patchCmdline ⟨[⟨".cmdline", 4, 8, 0⟩], [97, 98, 99, 100, 0, 0, 0, 0]⟩
        [65, 66, 67, 68, 69, 70]).1 = some [65, 66, 67, 68]
    ∧ trimTrailingZeros [65, 66, 67, 68, 69, 70] = [65, 66, 67, 68, 69, 70]
    ∧ ([65, 66, 67, 68] : List Nat) ≠ [65, 66, 67, 68, 69, 70] := by
  refine ⟨rfl, ?_, by decide, by decide⟩
  rfl

/-- C4 amended: patching with a value longer than the reserved section
size fails with the payload-too-large error and leaves the file
byte-for-byte unmodified; patching with a value within the reserved
size succeeds and writes the value NUL-padded to the reserved size at
the section's file offset, and the subsequent read returns the new
value trimmed of padding provided the value also fits within the
section's virtual size (the read is bounded by the virtual size, so a
longer value reads back truncated, as the counterexample shows). -/
theorem patchCmdline_spec (f : PEFile) (s : PESection) (new : List Nat)
    (hfind : f.sections.find? (fun t => t.name == ".cmdline") = some s)
    (hoff : s.offset + cmdlineReservedSize s ≤ f.data.length) :
    (new.length > cmdlineReservedSize s →
      patchCmdline f new = (f, .error "new cmdline too long"))
    ∧ (new.length ≤ cmdlineReservedSize s →
      (patchCmdline f new).2 = .ok ()
      ∧ (patchCmdline f new).1.data
          = writeAt f.data s.offset (padZeros new (cmdlineReservedSize s))
      ∧ (new.length ≤ min s.virtualSize s.size →
          readCmdline (patchCmdline f new).1 = some (trimTrailingZeros new))) := by
  constructor
  · intro hgt
    simp only [patchCmdline, hfind]
    rw [if_pos hgt]
  · intro hle
    have hngt : ¬(new.length > cmdlineReservedSize s) := by omega
    have hpe : patchCmdline f new
        = (({ f with
              data := writeAt f.data s.offset (padZeros new (cmdlineReservedSize s)) } :
            PEFile), Except.ok ()) := by
      simp only [patchCmdline, hfind]
      rw [if_neg hngt]
    refine ⟨by rw [hpe], by rw [hpe], ?_⟩
    intro hmin
    rw [hpe]
    show readCmdline
        ({ f with
            data := writeAt f.data s.offset (padZeros new (cmdlineReservedSize s)) } :
          PEFile) = some (trimTrailingZeros new)
    rw [readCmdline_of_find
      ({ f with
          data := writeAt f.data s.offset (padZeros new (cmdlineReservedSize s)) } :
        PEFile) s hfind]
    by_cases hsz : s.size = 0
    · have hn0 : new = [] := by
        have : new.length = 0 := by omega
        exact List.length_eq_zero.mp this
      have hstream : sectionStream
          ({ f with
              data := writeAt f.data s.offset (padZeros new (cmdlineReservedSize s)) } :
            PEFile) s = [] := by
        simp [sectionStream, hsz]
      rw [hstream, hn0]
    · rw [sectionStream_patched f s new hoff hsz hmin, trimTrailingZeros_pad]

/-- C4 witness: on a file whose cmdline section has virtual and raw
size 8, a 2-byte patch succeeds and reads back as exactly the new
value, and a 9-byte patch fails leaving the file unchanged. -/
theorem patchCmdline_spec_witness :
    readCmdline (patchCmdline ⟨[⟨".cmdline", 8, 8, 0⟩], [1, 2, 3, 4, 5, 6, 7, 8]⟩
        [65, 66]).1 = some (trimTrailingZeros [65, 66])
    ∧ patchCmdline ⟨[⟨".cmdline", 8, 8, 0⟩], [1, 2, 3, 4, 5, 6, 7, 8]⟩
        [9, 9, 9, 9, 9, 9, 9, 9, 9]
      = (⟨[⟨".cmdline", 8, 8, 0⟩], [1, 2, 3, 4, 5, 6, 7, 8]⟩, .error "new cmdline too long") := by
  constructor
  · exact ((patchCmdline_spec ⟨[⟨".cmdline", 8, 8, 0⟩], [1, 2, 3, 4, 5, 6, 7, 8]⟩
      ⟨".cmdline", 8, 8, 0⟩ [65, 66] rfl (by decide)).2 (by decide)).2.2 (by decide)
  · exact (patchCmdline_spec ⟨[⟨".cmdline", 8, 8, 0⟩], [1, 2, 3, 4, 5, 6, 7, 8]⟩
      ⟨".cmdline", 8, 8, 0⟩ [9, 9, 9, 9, 9, 9, 9, 9, 9] rfl (by decide)).1 (by decide)

/-! ## Boot-entry enumeration (`listBootEntries`, `getBootEntry`) -/

/-- The character class of the boot-variable pattern: an ASCII hex
digit. -/
def isHexDigitChar (c : Char) : Bool :=
  (48 ≤ c.toNat && c.toNat ≤ 57) || (97 ≤ c.toNat && c.toNat ≤ 102)
    || (65 ≤ c.toNat && c.toNat ≤ 70)

/-- The value of an ASCII hex digit. -/
def hexDigitVal (c : Char) : Nat :=
  if 48 ≤ c.toNat && c.toNat ≤ 57 then c.toNat - 48
  else if 97 ≤ c.toNat && c.toNat ≤ 102 then c.toNat - 87
  else c.toNat - 55

/-- The anchored boot-variable pattern (fixed Boot prefix followed by
exactly four hex digits) combined with the 16-bit hex parse of the
captured digits. -/
def parseBootVarName (name : String) : Option Nat :=
  match name.toList with
  | ['B', 'o', 'o', 't', a, b, c, d] =>
      if isHexDigitChar a && isHexDigitChar b && isHexDigitChar c && isHexDigitChar d then
        some (hexDigitVal a * 4096 + hexDigitVal b * 256 + hexDigitVal c * 16 + hexDigitVal d)
      else none
  | _ => none

/-- An upper-case hex digit character. -/
def hexDigitUpper (n : Nat) : Char :=
  if n < 10 then Char.ofNat (48 + n) else Char.ofNat (55 + n)

/-- A lower-case hex digit character. -/
def hexDigitLower (n : Nat) : Char :=
  if n < 10 then Char.ofNat (48 + n) else Char.ofNat (87 + n)

/-- The variable name fmt.Sprintf of Boot with four upper-case hex
digits. -/
def bootVarUpper (idx : Nat) : String :=
  String.mk ['B', 'o', 'o', 't', hexDigitUpper (idx / 4096 % 16),
    hexDigitUpper (idx / 256 % 16), hexDigitUpper (idx / 16 % 16), hexDigitUpper (idx % 16)]

/-- The variable name fmt.Sprintf of Boot with four lower-case hex
digits. -/
def bootVarLower (idx : Nat) : String :=
  String.mk ['B', 'o', 'o', 't', hexDigitLower (idx / 4096 % 16),
    hexDigitLower (idx / 256 % 16), hexDigitLower (idx / 16 % 16), hexDigitLower (idx % 16)]

/-- `getBootEntry`: read the upper-case variable name, falling back to
the lower-case name only when the former does not exist, then strip the
4-byte attribute word and decode the load option.  Every failure (no
file, short file, malformed load option) collapses to `none`. -/
def getBootEntry (s : EfiStore) (idx : Nat) : Option (List Nat) :=
  let raw := match storeLookup s (bootVarUpper idx) with
    | some r => some r
    | none => storeLookup s (bootVarLower idx)
  match raw with
  | none => none
  | some r => if r.length < 4 then none else unmarshalLoadOption (r.drop 4)

/-- The name loop of `listBootEntries`: keep the variables matching the
boot-entry pattern whose entry decodes, silently skipping the rest. -/
def listBootEntriesNames (s : EfiStore) : List String → List (Nat × List Nat)
  | [] => []
  | name :: rest =>
      match parseBootVarName name with
      | none => listBootEntriesNames s rest
      | some idx =>
          match getBootEntry s idx with
          | none => listBootEntriesNames s rest
          | some desc => (idx, desc) :: listBootEntriesNames s rest

/-- `listBootEntries`: enumerate the directory names in order and
decode each matching entry. -/
def listBootEntries (s : EfiStore) : List (Nat × List Nat) :=
  listBootEntriesNames s (s.map (fun e => e.1))

/-- The match loop of `UpdateEFIVariables`: the first entry, in
map-enumeration order, whose description is "Talos Linux UKI". -/
def findFirstTalosIdx : List (Nat × List Nat) → Option Nat
  | [] => none
  | e :: rest => if e.2 = talosDescUnits then some e.1 else findFirstTalosIdx rest

/-- `talosIndexSet` membership: does any entry with this index carry
the Talos description. -/
def inTalosIndexSet (entries : List (Nat × List Nat)) (idx : Nat) : Bool :=
  entries.any (fun e => e.1 == idx && e.2 == talosDescUnits)

theorem mem_listBootEntriesNames (s : EfiStore) : ∀ (names : List String)
    (idx : Nat) (desc : List Nat),
    (idx, desc) ∈ listBootEntriesNames s names ↔
      (getBootEntry s idx = some desc ∧ ∃ name ∈ names, parseBootVarName name = some idx)
  | [], idx, desc => by simp [listBootEntriesNames]
  | name :: rest, idx, desc => by
      have ih := mem_listBootEntriesNames s rest idx desc
      match hp : parseBootVarName name with
      | none =>
          simp only [listBootEntriesNames, hp, ih, List.mem_cons]
          constructor
          · rintro ⟨hg, n, hn, hpn⟩
            exact ⟨hg, n, Or.inr hn, hpn⟩
          · rintro ⟨hg, n, hn, hpn⟩
            rcases hn with rfl | hn
            · rw [hp] at hpn
              exact absurd hpn (by simp)
            · exact ⟨hg, n, hn, hpn⟩
      | some j =>
          match hg : getBootEntry s j with
          | none =>
              simp only [listBootEntriesNames, hp, hg, ih, List.mem_cons]
              constructor
              · rintro ⟨hgd, n, hn, hpn⟩
                exact ⟨hgd, n, Or.inr hn, hpn⟩
              · rintro ⟨hgd, n, hn, hpn⟩
                rcases hn with rfl | hn
                · rw [hp] at hpn
                  have : j = idx := by simpa using hpn
                  subst this
                  rw [hg] at hgd
                  exact absurd hgd (by simp)
                · exact ⟨hgd, n, hn, hpn⟩
          | some d =>
              simp only [listBootEntriesNames, hp, hg, List.mem_cons, ih]
              constructor
              · rintro (heq | ⟨hgd, n, hn, hpn⟩)
                · have h1 : idx = j := by
                    have := congrArg Prod.fst heq
                    simpa using this
                  have h2 : desc = d := by
                    have := congrArg Prod.snd heq
                    simpa using this
                  subst h1
                  subst h2
                  exact ⟨hg, name, Or.inl rfl, hp⟩
                · exact ⟨hgd, n, Or.inr hn, hpn⟩
              · rintro ⟨hgd, n, hn, hpn⟩
                rcases hn with rfl | hn
                · rw [hp] at hpn
                  have : j = idx := by simpa using hpn
                  subst this
                  rw [hg] at hgd
                  have : d = desc := by simpa using hgd
                  subst this
                  exact Or.inl rfl
                · exact Or.inr ⟨hgd, n, hn, hpn⟩

theorem findFirstTalosIdx_mem : ∀ (l : List (Nat × List Nat)) (t : Nat),
    findFirstTalosIdx l = some t → (t, talosDescUnits) ∈ l
  | [], t, h => by simp [findFirstTalosIdx] at h
  | e :: rest, t, h => by
      by_cases he : e.2 = talosDescUnits
      · simp only [findFirstTalosIdx, if_pos he] at h
        have : e = (t, talosDescUnits) := by
          obtain ⟨e1, e2⟩ := e
          simp only [Option.some_inj] at h
          simp only at he
          rw [he, h]
        rw [← this]
        exact List.mem_cons_self e rest
      · simp only [findFirstTalosIdx, if_neg he] at h
        exact List.mem_cons_of_mem e (findFirstTalosIdx_mem rest t h)

theorem findFirstTalosIdx_isSome : ∀ (l : List (Nat × List Nat)) (x : Nat),
    (x, talosDescUnits) ∈ l → ∃ t, findFirstTalosIdx l = some t
  | [], x, h => by simp at h
  | e :: rest, x, h => by
      by_cases he : e.2 = talosDescUnits
      · exact ⟨e.1, by simp [findFirstTalosIdx, he]⟩
      · rcases List.mem_cons.mp h with rfl | hm
        · exact absurd rfl he
        · obtain ⟨t, ht⟩ := findFirstTalosIdx_isSome rest x hm
          exact ⟨t, by simp [findFirstTalosIdx, he, ht]⟩

theorem findFirstTalosIdx_none : ∀ (l : List (Nat × List Nat)),
    (∀ e ∈ l, e.2 ≠ talosDescUnits) → findFirstTalosIdx l = none
  | [], _ => rfl
  | e :: rest, h => by
      simp only [findFirstTalosIdx, if_neg (h e (by simp))]
      exact findFirstTalosIdx_none rest (fun x hx => h x (by simp [hx]))

theorem inTalosIndexSet_perm (l₁ l₂ : List (Nat × List Nat))
    (h : l₁.Perm l₂) (i : Nat) :
    inTalosIndexSet l₁ i = inTalosIndexSet l₂ i := by
  rw [Bool.eq_iff_iff]
  simp only [inTalosIndexSet, List.any_eq_true]
  constructor
  · rintro ⟨e, he, hf⟩
    exact ⟨e, h.mem_iff.mp he, hf⟩
  · rintro ⟨e, he, hf⟩
    exact ⟨e, h.mem_iff.mpr he, hf⟩

/-- C10: enumeration skips malformed entries silently: an (index,
description) pair is listed exactly when the variable directory has a
name matching the boot-entry pattern with that index and the entry
decodes to that description; an entry whose read or decode fails is
absent, is no match candidate for promotion under any enumeration
order, and is not in the duplicate-exclusion set — enumeration itself
never fails. -/
theorem listBootEntries_spec (s : EfiStore) :
    (∀ idx desc, (idx, desc) ∈ listBootEntries s ↔
      (getBootEntry s idx = some desc
        ∧ ∃ name ∈ s.map (fun e => e.1), parseBootVarName name = some idx))
    ∧ (∀ idx, getBootEntry s idx = none →
        (∀ desc, (idx, desc) ∉ listBootEntries s)
        ∧ (∀ enum, enum.Perm (listBootEntries s) → findFirstTalosIdx enum ≠ some idx)
        ∧ inTalosIndexSet (listBootEntries s) idx = false) := by
  have hmem := mem_listBootEntriesNames s (s.map (fun e => e.1))
  refine ⟨hmem, ?_⟩
  intro idx hfail
  have habsent : ∀ desc, (idx, desc) ∉ listBootEntries s := by
    intro desc hcon
    have := (hmem idx desc).mp hcon
    rw [hfail] at this
    exact absurd this.1 (by simp)
  refine ⟨habsent, ?_, ?_⟩
  · intro enum hperm hcon
    have hm := findFirstTalosIdx_mem enum idx hcon
    exact habsent talosDescUnits (hperm.mem_iff.mp hm)
  · by_contra hcon
    have htrue : inTalosIndexSet (listBootEntries s) idx = true := by
      revert hcon
      cases inTalosIndexSet (listBootEntries s) idx <;> simp
    obtain ⟨e, he, hf⟩ := List.any_eq_true.mp htrue
    have h1 : e.1 = idx := by
      simpa using ((Bool.and_eq_true _ _).mp hf).1
    have h2 : e.2 = talosDescUnits := by
      simpa using ((Bool.and_eq_true _ _).mp hf).2
    have : (idx, talosDescUnits) ∈ listBootEntries s := by
      rw [← h1, ← h2]
      exact he
    exact habsent talosDescUnits this

/-- C10 witness: in a store whose Boot0002 variable is too short to
decode, that index is skipped while the well-formed Boot0007 entry is
listed, is the match candidate, and is in the exclusion set. -/
theorem listBootEntries_spec_witness :
    ((7, talosDescUnits) ∈ listBootEntries
        [("Boot0002", [1, 0]),
         ("Boot0007", le32 7 ++ ([1, 0, 0, 0, 0, 0] ++ (utf16leEncode talosDescUnits ++ [0, 0])))]
      ↔ (getBootEntry
          [("Boot0002", [1, 0]),
           ("Boot0007", le32 7 ++ ([1, 0, 0, 0, 0, 0] ++ (utf16leEncode talosDescUnits ++ [0, 0])))] 7
            = some talosDescUnits
          ∧ ∃ name ∈ ([("Boot0002", [1, 0]),
              ("Boot0007", le32 7 ++ ([1, 0, 0, 0, 0, 0] ++ (utf16leEncode talosDescUnits ++ [0, 0])))] :
                EfiStore).map (fun e => e.1), parseBootVarName name = some 7))
    ∧ (∀ desc, (2, desc) ∉ listBootEntries
        [("Boot0002", [1, 0]),
         ("Boot0007", le32 7 ++ ([1, 0, 0, 0, 0, 0] ++ (utf16leEncode talosDescUnits ++ [0, 0])))]) :=
  ⟨(listBootEntries_spec _).1 7 talosDescUnits,
   ((listBootEntries_spec _).2 2 (by decide)).1⟩

/-! ## Boot-order promotion (`UpdateEFIVariables`) -/

/-- How a BootOrder read can fail: the variable file does not exist, or
its contents are malformed (short file or odd-length payload). -/
inductive BootOrderReadError
  | notExist
  | malformed
deriving DecidableEq

/-- `getBootOrder`: read the BootOrder variable and unmarshal its
payload. -/
def getBootOrder (s : EfiStore) : Except BootOrderReadError (List Nat) :=
  match storeLookup s "BootOrder" with
  | none => .error .notExist
  | some raw =>
      if raw.length < 4 then .error .malformed
      else
        match unmarshalBootOrder (raw.drop 4) with
        | none => .error .malformed
        | some bo => .ok bo

/-- `UpdateEFIVariables` (the EFI-variable part): read the current
BootOrder, treating a missing variable as the empty order and failing
on a malformed one; find the first Talos entry in map-enumeration
order, failing when there is none; then write the new order — the
matched index first, followed by the old order minus every index in the
Talos index set.  `entriesEnum` is the order in which Go's map
iteration visits the decoded boot entries; it is unspecified at
runtime, so theorems quantify over permutations of `listBootEntries`.
The result pairs the store after the call with the outcome. -/
def updateEFIVariables (s : EfiStore) (entriesEnum : List (Nat × List Nat)) :
    EfiStore × Except String (List Nat) :=
  match getBootOrder s with
  | .error .malformed => (s, .error "failed to get BootOrder")
  | bores =>
      let bootOrder := match bores with
        | .ok bo => bo
        | _ => []
      match findFirstTalosIdx entriesEnum with
      | none => (s, .error "Talos boot entry not found")
      | some t =>
          let nbo := t :: bootOrder.filter (fun i => !(inTalosIndexSet entriesEnum i))
          (efiVarWrite s "BootOrder" (attrNonVolatile ||| attrRuntimeAccess)
            (marshalBootOrder nbo), .ok nbo)

/-- The description units of the unrelated entry in the promotion
scenario. -/
def otherDescUnits : List Nat := "Other".toList.map Char.toNat

/-- The raw variable file of a boot entry: attribute word, 6-byte
load-option header, UTF-16LE description, NUL terminator. -/
def mkLoadOptionRaw (units : List Nat) : List Nat :=
  le32 7 ++ ([1, 0, 0, 0, 0, 0] ++ (utf16leEncode units ++ [0, 0]))

/-- The promotion scenario of the spec: entries 0001 "Other", 0007 and
0009 both "Talos Linux UKI", original order 1, 7, 9. -/
def c2Store : EfiStore :=
  [("BootOrder", le32 7 ++ marshalBootOrder [1, 7, 9]),
   ("Boot0001", mkLoadOptionRaw otherDescUnits),
   ("Boot0007", mkLoadOptionRaw talosDescUnits),
   ("Boot0009", mkLoadOptionRaw talosDescUnits)]

/-- A legal map-enumeration order of the scenario's decoded entries
that visits entry 0009 before entry 0007. -/
def c2Enum : List (Nat × List Nat) :=
  [(9, talosDescUnits), (7, talosDescUnits), (1, otherDescUnits)]

/-- C2 counterexample: under the map-enumeration order that visits
entry 0009 first (a legal iteration order of the Go map, which is a
permutation of the decoded entries), promotion writes BootOrder 9, 1 —
not 7, 1 as the claim states: the promoted index is whichever
Talos-description entry the unspecified map iteration yields first. -/
theorem updateEFI_promotion_counterexample :
    c2Enum.Perm (listBootEntries c2Store)
    ∧ (updateEFIVariables c2Store c2Enum).2 = .ok [9, 1]
    ∧ ([9, 1] : List Nat) ≠ [7, 1] := by
  refine ⟨by decide, rfl, by decide⟩

/-- C2 amended: in the promotion scenario, for every enumeration order
of the decoded entries, the new BootOrder is the matched Talos entry's
index (7 or 9, whichever the enumeration yields first; 7 under an
index-ascending enumeration) followed by 1: every index belonging to
any entry with the matching description is excluded from the original
order and the unrelated index 1 is preserved; the new order is written
to the store as a BootOrder variable. -/
theorem updateEFI_promotion (enum : List (Nat × List Nat))
    (hperm : enum.Perm (listBootEntries c2Store)) :
    ∃ t, (t = 7 ∨ t = 9)
      ∧ findFirstTalosIdx enum = some t
      ∧ (updateEFIVariables c2Store enum).2 = .ok [t, 1]
      ∧ storeLookup (updateEFIVariables c2Store enum).1 "BootOrder"
          = some (efiWriteValue (attrNonVolatile ||| attrRuntimeAccess)
              (marshalBootOrder [t, 1])) := by
  have hlist : listBootEntries c2Store
      = [(1, otherDescUnits), (7, talosDescUnits), (9, talosDescUnits)] := by decide
  have hmem7 : (7, talosDescUnits) ∈ enum := by
    rw [hperm.mem_iff, hlist]
    simp
  obtain ⟨t, ht⟩ := findFirstTalosIdx_isSome enum 7 hmem7
  have htmem : (t, talosDescUnits) ∈ listBootEntries c2Store :=
    hperm.mem_iff.mp (findFirstTalosIdx_mem enum t ht)
  have ht79 : t = 7 ∨ t = 9 := by
    rw [hlist] at htmem
    simp only [List.mem_cons, List.not_mem_nil, or_false] at htmem
    rcases htmem with h | h | h
    · have hdesc : talosDescUnits = otherDescUnits := congrArg Prod.snd h
      exact absurd hdesc (by decide)
    · exact Or.inl (by simpa using congrArg Prod.fst h)
    · exact Or.inr (by simpa using congrArg Prod.fst h)
  have hbo : getBootOrder c2Store = .ok [1, 7, 9] := rfl
  have hfilter : List.filter (fun i => !(inTalosIndexSet enum i)) [1, 7, 9] = [1] := by
    have hfun : ∀ i, (fun i => !(inTalosIndexSet enum i)) i
        = (fun i => !(inTalosIndexSet (listBootEntries c2Store) i)) i := by
      intro i
      simp only [inTalosIndexSet_perm enum (listBootEntries c2Store) hperm i]
    rw [List.filter_congr (fun i _ => hfun i), hlist]
    decide
  have hupd : updateEFIVariables c2Store enum
      = (efiVarWrite c2Store "BootOrder" (attrNonVolatile ||| attrRuntimeAccess)
          (marshalBootOrder [t, 1]), .ok [t, 1]) := by
    simp only [updateEFIVariables, hbo, ht, hfilter]
  refine ⟨t, ht79, ht, by rw [hupd], ?_⟩
  rw [hupd]
  exact storeLookup_storeWriteRaw c2Store "BootOrder" _

/-- C2 witness: under the index-ascending enumeration the amended
statement instantiates to the matched entry 7 and new order 7, 1. -/
theorem updateEFI_promotion_witness :
    ∃ t, (t = 7 ∨ t = 9)
      ∧ findFirstTalosIdx [(1, otherDescUnits), (7, talosDescUnits), (9, talosDescUnits)]
          = some t
      ∧ (updateEFIVariables c2Store
          [(1, otherDescUnits), (7, talosDescUnits), (9, talosDescUnits)]).2 = .ok [t, 1]
      ∧ storeLookup (updateEFIVariables c2Store
            [(1, otherDescUnits), (7, talosDescUnits), (9, talosDescUnits)]).1 "BootOrder"
          = some (efiWriteValue (attrNonVolatile ||| attrRuntimeAccess)
              (marshalBootOrder [t, 1])) :=
  updateEFI_promotion [(1, otherDescUnits), (7, talosDescUnits), (9, talosDescUnits)]
    (by decide)

/-- C9: when no decoded boot entry's description equals the match
description, promotion fails with the entry-not-found error and
returns the store unchanged: the BootOrder variable is not written.
(The hypothesis on `getBootOrder` excludes the earlier, distinct
failure of a malformed existing BootOrder variable, which stops the
function before the entry search.) -/
theorem updateEFI_no_match (s : EfiStore) (enum : List (Nat × List Nat))
    (hperm : enum.Perm (listBootEntries s))
    (hboro : getBootOrder s ≠ .error .malformed)
    (hnone : ∀ e ∈ listBootEntries s, e.2 ≠ talosDescUnits) :
    updateEFIVariables s enum = (s, .error "Talos boot entry not found") := by
  have hnone2 : ∀ e ∈ enum, e.2 ≠ talosDescUnits := fun e he =>
    hnone e (hperm.mem_iff.mp he)
  have hfind := findFirstTalosIdx_none enum hnone2
  match hbo : getBootOrder s with
  | .error .malformed => exact absurd hbo hboro
  | .error .notExist => simp only [updateEFIVariables, hbo, hfind]
  | .ok bo => simp only [updateEFIVariables, hbo, hfind]

/-- C9 witness: a store whose only boot entry is described "Other"
(and whose BootOrder is 1) makes promotion fail with entry-not-found,
store unchanged. -/
theorem updateEFI_no_match_witness :
    updateEFIVariables
        [("BootOrder", le32 7 ++ marshalBootOrder [1]),
         ("Boot0001", mkLoadOptionRaw otherDescUnits)]
        [(1, otherDescUnits)]
      = ([("BootOrder", le32 7 ++ marshalBootOrder [1]),
          ("Boot0001", mkLoadOptionRaw otherDescUnits)],
         .error "Talos boot entry not found") :=
  updateEFI_no_match _ [(1, otherDescUnits)] (by decide)
    (by simp [show getBootOrder
        [("BootOrder", le32 7 ++ marshalBootOrder [1]),
         ("Boot0001", mkLoadOptionRaw otherDescUnits)] = Except.ok [1] from rfl])
    (by decide)

/-! ## kexec_file_load attempt structure (`internal/boot`:
`KexecLoadFromAssets` and `handleKexecError`) -/

/-- errno EPERM. -/
def EPERM : Nat := 1

/-- errno ENOSYS. -/
def ENOSYS : Nat := 38

/-- errno EBUSY. -/
def EBUSY : Nat := 16

/-- errno EKEYREJECTED. -/
def EKEYREJECTED : Nat := 129

/-- errno ENOTSUP. -/
def ENOTSUP : Nat := 95

/-- The flag value passed on the retry attempt. -/
def KEXEC_FILE_LOAD_UNSAFE : Nat := 1

/-- The error classes `handleKexecError` distinguishes. -/
inductive KexecError
  | unsupported
  | lockdownBlocked
  | sysctlDisabled
  | permissionDenied
  | busy
  | signatureRejected
  | notSupported
  | unknown (errno : Nat)
deriving DecidableEq

/-- `handleKexecError`: classify a non-zero errno.  The two Booleans
abstract the two diagnostic file reads on the EPERM path (whether the
kernel lockdown file shows confidentiality or integrity mode, and
whether the kexec_load_disabled sysctl reads as 1). -/
def handleKexecError (errno : Nat) (lockdownActive sysctlDisabledFlag : Bool) :
    KexecError :=
  if errno = ENOSYS then .unsupported
  else if errno = EPERM then
    if lockdownActive then .lockdownBlocked
    else if sysctlDisabledFlag then .sysctlDisabled
    else .permissionDenied
  else if errno = EBUSY then .busy
  else if errno = EKEYREJECTED then .signatureRejected
  else if errno = ENOTSUP then .notSupported
  else .unknown errno

/-- The kexec_file_load call block of `KexecLoadFromAssets`: `errno1`
is the kernel's result for the first attempt (flags 0) and `errno2`
its result for the retry (flags KEXEC_FILE_LOAD_UNSAFE), consulted
only when the retry is made.  Returns the flags passed to the syscall,
attempt by attempt, and the outcome; errno 0 is success, after which
the loader proceeds to the reboot call. -/
def kexecAttempts (errno1 errno2 : Nat) (lockdownActive sysctlDisabledFlag : Bool) :
    List Nat × Except KexecError Unit :=
  if errno1 = EPERM then
    if errno2 ≠ 0 then
      ([0, KEXEC_FILE_LOAD_UNSAFE],
       .error (handleKexecError errno2 lockdownActive sysctlDisabledFlag))
    else ([0, KEXEC_FILE_LOAD_UNSAFE], .ok ())
  else if errno1 ≠ 0 then
    ([0], .error (handleKexecError errno1 lockdownActive sysctlDisabledFlag))
  else ([0], .ok ())

/-- C3: the loader attempts the kexec_file_load syscall at most twice;
a second attempt happens exactly when the first fails with EPERM, and
it carries the unsafe/skip-signature flag (the first carries no
flags); when the retry also fails the classified error of the second
errno is returned with no further attempt, and a first failure other
than EPERM is classified and returned after a single attempt. -/
theorem kexec_retry_structure (errno1 errno2 : Nat)
    (lockdownActive sysctlDisabledFlag : Bool) :
    (kexecAttempts errno1 errno2 lockdownActive sysctlDisabledFlag).1.length ≤ 2
    ∧ ((kexecAttempts errno1 errno2 lockdownActive sysctlDisabledFlag).1.length = 2
        ↔ errno1 = EPERM)
    ∧ (kexecAttempts errno1 errno2 lockdownActive sysctlDisabledFlag).1
        = (if errno1 = EPERM then [0, KEXEC_FILE_LOAD_UNSAFE] else [0])
    ∧ (errno1 = EPERM → errno2 ≠ 0 →
        (kexecAttempts errno1 errno2 lockdownActive sysctlDisabledFlag).2
          = .error (handleKexecError errno2 lockdownActive sysctlDisabledFlag))
    ∧ (errno1 ≠ EPERM → errno1 ≠ 0 →
        (kexecAttempts errno1 errno2 lockdownActive sysctlDisabledFlag).2
          = .error (handleKexecError errno1 lockdownActive sysctlDisabledFlag)) := by
  by_cases h1 : errno1 = EPERM
  · by_cases h2 : errno2 ≠ 0 <;>
      simp [kexecAttempts, h1, h2]
  · have h1' : ¬errno1 = 1 := h1
    by_cases h0 : errno1 = 0 <;>
      simp [kexecAttempts, EPERM, h1', h0]

/-- C3 witness: a first attempt failing with EPERM and a retry failing
with EKEYREJECTED produce exactly the two attempts, the second with
the unsafe flag, and the classified signature-rejection error. -/
theorem kexec_retry_structure_witness :
    (kexecAttempts EPERM EKEYREJECTED false false).1 = [0, KEXEC_FILE_LOAD_UNSAFE]
    ∧ (kexecAttempts EPERM EKEYREJECTED false false).2
        = .error KexecError.signatureRejected := by
  have h := kexec_retry_structure EPERM EKEYREJECTED false false
  refine ⟨?_, ?_⟩
  · rw [h.2.2.1]
    decide
  · rw [h.2.2.2.1 rfl (by decide)]
    exact congrArg Except.error (by decide)

end BootToTalos
